import Mathlib

/-!
# Verification of the py-multiaddr codec layer

A shallow embedding of the multiaddr string/binary codec layer:

* the `p2p` codec (`multiaddr/codecs/p2p.py`): length-prefixed base58
  conversion between peer-id strings and wire bytes;
* the base58 and varint primitives the codec calls into;
* the transform engine (`string_to_bytes` / `bytes_to_string` / `bytes_iter`)
  and the content-identifier (`cid`) codec, modelled from the specification
  where the repository snapshot only ships their tests.

Byte strings are embedded as `List Nat` with every element `< 256` where that
matters; text is Lean `String`.  Fallible operations return `Except MAErr`.
-/

/-- Error kinds of the multiaddr layer (§7 of the spec): the two public parse
errors raised at the transform-engine boundary, plus the lower-level codec
failure kinds that the engine wraps. -/
inductive MAErr where
  | stringParse
  | binaryParse
  | valueError
  | protocolNotFound
  | parseFail
deriving DecidableEq, Repr

/-! ## Little-endian digit expansions

`Nat.digits` in Mathlib is defined by well-founded recursion and does not
reduce in the kernel, so concrete test vectors could not be checked against
it by `decide`.  We use a fuel-indexed structural variant and prove it equal
to `Nat.digits`, keeping both executability and the Mathlib lemma library. -/

def toDigitsLEAux (b : Nat) : Nat → Nat → List Nat
  | 0, _ => []
  | _ + 1, 0 => []
  | fuel + 1, n + 1 => (n + 1) % b :: toDigitsLEAux b fuel ((n + 1) / b)

/-- Little-endian base-`b` digits of `n` (empty for `n = 0`). -/
def toDigitsLE (b n : Nat) : List Nat :=
  toDigitsLEAux b n n

/-- Value of a little-endian digit list in base `b`. -/
def ofDigitsLE (b : Nat) : List Nat → Nat
  | [] => 0
  | d :: ds => d + b * ofDigitsLE b ds

theorem toDigitsLEAux_eq_digits (b : Nat) (hb : 2 ≤ b) :
    ∀ fuel n, n ≤ fuel → toDigitsLEAux b fuel n = Nat.digits b n := by
  intro fuel
  induction fuel with
  | zero =>
      intro n hn
      interval_cases n
      simp [toDigitsLEAux]
  | succ fuel ih =>
      intro n hn
      match n with
      | 0 => simp [toDigitsLEAux]
      | m + 1 =>
          have hpos : 0 < m + 1 := Nat.succ_pos m
          have hdiv : (m + 1) / b ≤ fuel := by
            have h1 : (m + 1) / b < m + 1 := Nat.div_lt_self hpos (by omega)
            omega
          rw [toDigitsLEAux, ih _ hdiv, ← Nat.digits_def' (by omega : 1 < b) hpos]

theorem toDigitsLE_eq_digits (b n : Nat) (hb : 2 ≤ b) :
    toDigitsLE b n = Nat.digits b n :=
  toDigitsLEAux_eq_digits b hb n n le_rfl

theorem ofDigitsLE_eq_ofDigits (b : Nat) (l : List Nat) :
    ofDigitsLE b l = Nat.ofDigits b l := by
  induction l with
  | nil => simp [ofDigitsLE, Nat.ofDigits_nil]
  | cons d ds ih => simp [ofDigitsLE, Nat.ofDigits_cons, ih]

theorem ofDigitsLE_append (b : Nat) (l₁ l₂ : List Nat) :
    ofDigitsLE b (l₁ ++ l₂) = ofDigitsLE b l₁ + b ^ l₁.length * ofDigitsLE b l₂ := by
  simp [ofDigitsLE_eq_ofDigits, Nat.ofDigits_append]

theorem ofDigitsLE_replicate_zero (b z : Nat) :
    ofDigitsLE b (List.replicate z 0) = 0 := by
  induction z with
  | zero => rfl
  | succ z ih => simp [List.replicate, ofDigitsLE, ih]

/-- Trailing zero digits do not change the value of a digit list. -/
theorem ofDigitsLE_append_replicate_zero (b z : Nat) (l : List Nat) :
    ofDigitsLE b (l ++ List.replicate z 0) = ofDigitsLE b l := by
  simp [ofDigitsLE_append, ofDigitsLE_replicate_zero]

/-- A digit list ending in a nonzero digit has a positive value when all is
read little-endian, i.e. its most significant digit is nonzero. -/
theorem ofDigitsLE_pos_of_getLast_ne_zero (b : Nat) (hb : 1 ≤ b) (l : List Nat)
    (hl : l ≠ []) (hlast : l.getLast hl ≠ 0) : 0 < ofDigitsLE b l := by
  induction l with
  | nil => exact absurd rfl hl
  | cons d ds ih =>
      match ds, hl with
      | [], _ =>
          simp only [List.getLast_singleton] at hlast
          simp [ofDigitsLE]
          omega
      | e :: es, _ =>
          have h1 : (e :: es : List Nat) ≠ [] := by simp
          have h2 := ih h1 (by rw [List.getLast_cons h1] at hlast; exact hlast)
          have h3 : 0 < b * ofDigitsLE b (e :: es) := Nat.mul_pos (by omega) h2
          show 0 < d + b * ofDigitsLE b (e :: es)
          omega

/-! ## Leading-element counting (models `str.lstrip` bookkeeping in base58) -/

def countLeading {α : Type} [DecidableEq α] (a : α) : List α → Nat
  | [] => 0
  | x :: xs => if x = a then countLeading a xs + 1 else 0

def dropLeading {α : Type} [DecidableEq α] (a : α) : List α → List α
  | [] => []
  | x :: xs => if x = a then dropLeading a xs else x :: xs

theorem countLeading_dropLeading {α : Type} [DecidableEq α] (a : α) (l : List α) :
    List.replicate (countLeading a l) a ++ dropLeading a l = l := by
  induction l with
  | nil => rfl
  | cons x xs ih =>
      by_cases h : x = a
      · subst h; simp [countLeading, dropLeading, List.replicate, ih]
      · simp [countLeading, dropLeading, h]

theorem dropLeading_head_ne {α : Type} [DecidableEq α] (a : α) (l : List α) :
    ∀ x xs, dropLeading a l = x :: xs → x ≠ a := by
  induction l with
  | nil => intro x xs h; simp [dropLeading] at h
  | cons y ys ih =>
      intro x xs h
      by_cases hy : y = a
      · subst hy; simp only [dropLeading, if_pos rfl] at h; exact ih x xs h
      · simp only [dropLeading, if_neg hy] at h
        obtain ⟨rfl, rfl⟩ := h
        exact hy

theorem countLeading_replicate_append {α : Type} [DecidableEq α] (a : α) (z : Nat)
    (l : List α) : countLeading a (List.replicate z a ++ l) = z + countLeading a l := by
  induction z with
  | zero => simp
  | succ z ih => simp [List.replicate, countLeading, ih]; omega

theorem countLeading_cons_ne {α : Type} [DecidableEq α] (a x : α) (xs : List α)
    (h : x ≠ a) : countLeading a (x :: xs) = 0 := by
  simp [countLeading, h]

theorem countLeading_nil {α : Type} [DecidableEq α] (a : α) :
    countLeading a ([] : List α) = 0 := rfl

/-! ## Positional lookup in a character table -/

def idxOf? (c : Char) : List Char → Option Nat
  | [] => none
  | x :: xs => if x = c then some 0 else (idxOf? c xs).map (· + 1)

theorem idxOf?_spec (c : Char) : ∀ (l : List Char) (d : Nat),
    idxOf? c l = some d → d < l.length ∧ l.getD d c = c := by
  intro l
  induction l with
  | nil => intro d h; simp [idxOf?] at h
  | cons x xs ih =>
      intro d h
      by_cases hx : x = c
      · simp only [idxOf?, if_pos hx] at h
        cases h
        subst hx
        simp [List.getD]
      · simp only [idxOf?, if_neg hx, Option.map_eq_some'] at h
        obtain ⟨d', hd', rfl⟩ := h
        obtain ⟨h1, h2⟩ := ih d' hd'
        refine ⟨by simpa using Nat.succ_lt_succ h1, ?_⟩
        simpa [List.getD] using h2

/-! ## Varint (little-endian base-128, `varint` package / spec §4.2) -/

def varintEncodeAux : Nat → Nat → List Nat
  | 0, n => [n % 128]
  | fuel + 1, n => if n < 128 then [n] else (n % 128 + 128) :: varintEncodeAux fuel (n / 128)

/-- Standard unsigned LEB128 encoding: 7 payload bits per byte, least
significant group first, continuation bit `0x80` on all but the final byte. -/
def varintEncode (n : Nat) : List Nat :=
  varintEncodeAux n n

/-- LEB128 decoding: returns the value and the number of bytes consumed, or
`none` on truncated input (a continuation bit set on the final available
byte).  Models `read_varint_code` / `varint.decode` from the spec. -/
def varintDecode : List Nat → Option (Nat × Nat)
  | [] => none
  | b :: rest =>
      if b < 128 then some (b, 1)
      else
        match varintDecode rest with
        | none => none
        | some (v, k) => some (b % 128 + 128 * v, k + 1)

theorem varintEncodeAux_fuel_irrel :
    ∀ fuel fuel' n, n ≤ fuel → n ≤ fuel' →
      varintEncodeAux fuel n = varintEncodeAux fuel' n := by
  intro fuel
  induction fuel with
  | zero =>
      intro fuel' n h h'
      interval_cases n
      cases fuel' <;> simp [varintEncodeAux]
  | succ fuel ih =>
      intro fuel' n h h'
      cases fuel' with
      | zero =>
          interval_cases n
          simp [varintEncodeAux]
      | succ fuel' =>
          simp only [varintEncodeAux]
          by_cases hn : n < 128
          · simp [hn]
          · have hd : n / 128 ≤ fuel := by
              have := Nat.div_lt_self (show 0 < n by omega) (show 1 < 128 by omega)
              omega
            have hd' : n / 128 ≤ fuel' := by
              have := Nat.div_lt_self (show 0 < n by omega) (show 1 < 128 by omega)
              omega
            simp [hn, ih fuel' _ hd hd']

/-- Unfolding equation for `varintEncode`, independent of the fuel. -/
theorem varintEncode_unfold (n : Nat) :
    varintEncode n = if n < 128 then [n] else (n % 128 + 128) :: varintEncode (n / 128) := by
  by_cases hn : n < 128
  · cases n with
    | zero => simp [varintEncode, varintEncodeAux, hn]
    | succ m => simp [varintEncode, varintEncodeAux, hn]
  · have hpos : 0 < n := by omega
    have hstep : varintEncode n
        = (n % 128 + 128) :: varintEncodeAux (n - 1) (n / 128) := by
      cases n with
      | zero => omega
      | succ m => simp [varintEncode, varintEncodeAux, hn]
    rw [hstep, if_neg hn]
    congr 1
    exact varintEncodeAux_fuel_irrel (n - 1) (n / 128) (n / 128)
      (by have := Nat.div_lt_self hpos (show 1 < 128 by omega); omega) le_rfl

/-- Decoding an encoded varint followed by anything recovers the value and
consumes exactly the encoded bytes. -/
theorem varintDecode_encode (n : Nat) : ∀ rest : List Nat,
    varintDecode (varintEncode n ++ rest) = some (n, (varintEncode n).length) := by
  induction n using Nat.strong_induction_on with
  | _ n ih =>
      intro rest
      rw [varintEncode_unfold]
      by_cases hn : n < 128
      · simp [hn, varintDecode]
      · have hlt : n / 128 < n :=
          Nat.div_lt_self (by omega) (by omega)
        have hge : ¬ (n % 128 + 128 < 128) := by omega
        simp only [if_neg hn, List.cons_append, varintDecode, if_neg hge,
          ih (n / 128) hlt rest, List.length_cons, Option.some.injEq, Prod.mk.injEq]
        constructor
        · have := Nat.mod_add_div n 128
          omega
        · trivial

/-! ## Base58 (the `base58` library the p2p codec calls into)

`b58decode` interprets the whole string as a base-58 numeral, with each
leading `'1'` character standing for one leading zero byte; `b58encode` is
the inverse rendering.  This mirrors the `base58` pypi package used by
`multiaddr/codecs/p2p.py`. -/

def B58_ALPHABET : List Char :=
  ['1', '2', '3', '4', '5', '6', '7', '8', '9',
   'A', 'B', 'C', 'D', 'E', 'F', 'G', 'H', 'J', 'K', 'L', 'M', 'N',
   'P', 'Q', 'R', 'S', 'T', 'U', 'V', 'W', 'X', 'Y', 'Z',
   'a', 'b', 'c', 'd', 'e', 'f', 'g', 'h', 'i', 'j', 'k', 'm', 'n',
   'o', 'p', 'q', 'r', 's', 't', 'u', 'v', 'w', 'x', 'y', 'z']

/-- Digit value of one base58 character, `none` outside the alphabet. -/
def b58Digit? (c : Char) : Option Nat :=
  idxOf? c B58_ALPHABET

/-- Character for one base58 digit (digits are `< 58`). -/
def b58Char (d : Nat) : Char :=
  B58_ALPHABET.getD d '1'

/-- Digit values of a character list, `none` if any char is non-base58. -/
def b58DigitsOf : List Char → Option (List Nat)
  | [] => some []
  | c :: cs =>
      match b58Digit? c, b58DigitsOf cs with
      | some d, some ds => some (d :: ds)
      | _, _ => none

/-- `base58.b58encode` over a byte list: one `'1'` per leading zero byte,
then the big-endian base-58 numeral of the value of the bytes. -/
def b58encode (l : List Nat) : String :=
  ⟨List.replicate (countLeading 0 l) '1'
    ++ (toDigitsLE 58 (ofDigitsLE 256 l.reverse)).reverse.map b58Char⟩

/-- `base58.b58decode`: `none` on characters outside the alphabet, else one
zero byte per leading `'1'` followed by the big-endian bytes of the numeral
value of the string. -/
def b58decode (s : String) : Option (List Nat) :=
  match b58DigitsOf s.data with
  | none => none
  | some ds =>
      some (List.replicate (countLeading '1' s.data) 0
        ++ (toDigitsLE 256 (ofDigitsLE 58 ds.reverse)).reverse)

theorem b58Digit?_b58Char : ∀ d, d < 58 → b58Digit? (b58Char d) = some d := by
  decide

theorem b58Char_eq_one_iff : ∀ d, d < 58 → (b58Char d = '1' ↔ d = 0) := by
  decide

theorem b58Digit?_one : b58Digit? '1' = some 0 := by
  decide

theorem getD_default_irrel {α : Type} : ∀ (l : List α) (d : Nat), d < l.length →
    ∀ (a b : α), l.getD d a = l.getD d b := by
  intro l
  induction l with
  | nil => intro d h; simp at h
  | cons x xs ih =>
      intro d h a b
      cases d with
      | zero => rfl
      | succ d => exact ih d (by simpa using h) a b

theorem b58Digit?_lt (c : Char) (d : Nat) (h : b58Digit? c = some d) :
    d < 58 ∧ b58Char d = c := by
  obtain ⟨h1, h2⟩ := idxOf?_spec c B58_ALPHABET d h
  refine ⟨by simpa using h1, ?_⟩
  unfold b58Char
  rw [getD_default_irrel B58_ALPHABET d h1 '1' c, h2]

theorem b58DigitsOf_append : ∀ l₁ l₂ ds₁ ds₂,
    b58DigitsOf l₁ = some ds₁ → b58DigitsOf l₂ = some ds₂ →
    b58DigitsOf (l₁ ++ l₂) = some (ds₁ ++ ds₂) := by
  intro l₁
  induction l₁ with
  | nil =>
      intro l₂ ds₁ ds₂ h1 h2
      simp only [b58DigitsOf] at h1
      cases h1
      simpa using h2
  | cons c cs ih =>
      intro l₂ ds₁ ds₂ h1 h2
      simp only [b58DigitsOf] at h1
      cases hd : b58Digit? c with
      | none => rw [hd] at h1; simp at h1
      | some d =>
          rw [hd] at h1
          cases hds : b58DigitsOf cs with
          | none => rw [hds] at h1; simp at h1
          | some ds =>
              rw [hds] at h1
              simp only at h1
              cases h1
              have hrec := ih l₂ ds ds₂ hds h2
              show b58DigitsOf (c :: (cs ++ l₂)) = some ((d :: ds) ++ ds₂)
              simp only [b58DigitsOf, hd, hrec, List.cons_append]

theorem b58DigitsOf_replicate_one (z : Nat) :
    b58DigitsOf (List.replicate z '1') = some (List.replicate z 0) := by
  induction z with
  | zero => rfl
  | succ z ih => simp [List.replicate, b58DigitsOf, b58Digit?_one, ih]

theorem b58DigitsOf_map_b58Char (ds : List Nat) (h : ∀ d ∈ ds, d < 58) :
    b58DigitsOf (ds.map b58Char) = some ds := by
  induction ds with
  | nil => rfl
  | cons d ds ih =>
      simp only [List.map_cons, b58DigitsOf]
      rw [b58Digit?_b58Char d (h d (List.mem_cons_self d ds)),
        ih (fun x hx => h x (List.mem_cons_of_mem d hx))]

/-- Inversion: a successful `b58DigitsOf` exhibits the chars as the digit
images under `b58Char`, with all digits `< 58`. -/
theorem b58DigitsOf_inv : ∀ (cs : List Char) (ds : List Nat),
    b58DigitsOf cs = some ds → cs = ds.map b58Char ∧ ∀ d ∈ ds, d < 58 := by
  intro cs
  induction cs with
  | nil =>
      intro ds h
      simp only [b58DigitsOf] at h
      cases h
      simp
  | cons c cs ih =>
      intro ds h
      simp only [b58DigitsOf] at h
      cases hd : b58Digit? c with
      | none => rw [hd] at h; simp at h
      | some d =>
          rw [hd] at h
          cases hds : b58DigitsOf cs with
          | none => rw [hds] at h; simp at h
          | some ds' =>
              rw [hds] at h
              simp only at h
              cases h
              obtain ⟨hcs, hlt⟩ := ih ds' hds
              obtain ⟨hdlt, hchar⟩ := b58Digit?_lt c d hd
              refine ⟨?_, ?_⟩
              · simp [List.map_cons, hchar, ← hcs]
              · intro x hx
                rcases List.mem_cons.mp hx with rfl | hx'
                · exact hdlt
                · exact hlt x hx'


theorem getLast?_append_singleton {α : Type} : ∀ (l : List α) (a : α),
    (l ++ [a]).getLast? = some a := by
  intro l a
  induction l with
  | nil => rfl
  | cons x xs ih =>
      cases xs with
      | nil => rfl
      | cons y ys => simpa using ih

theorem getLast?_some_getLast {α : Type} : ∀ (l : List α) (h : l ≠ []),
    l.getLast? = some (l.getLast h) := by
  intro l
  induction l with
  | nil => intro h; exact absurd rfl h
  | cons x xs ih =>
      intro h
      cases xs with
      | nil => rfl
      | cons y ys =>
          rw [List.getLast?_cons_cons, List.getLast_cons (List.cons_ne_nil y ys)]
          exact ih (List.cons_ne_nil y ys)

theorem head?_append_of_ne_nil {α : Type} : ∀ (l t : List α), l ≠ [] →
    (l ++ t).head? = l.head? := by
  intro l t h
  cases l with
  | nil => exact absurd rfl h
  | cons x xs => rfl

theorem head?_reverse_own {α : Type} : ∀ (l : List α), l.reverse.head? = l.getLast? := by
  intro l
  induction l with
  | nil => rfl
  | cons x xs ih =>
      cases hxs : xs with
      | nil => rfl
      | cons y ys =>
          have hne : (y :: ys).reverse ≠ [] := by
            intro hc
            exact List.cons_ne_nil y ys (List.reverse_eq_nil_iff.mp hc)
          rw [List.reverse_cons, head?_append_of_ne_nil (y :: ys).reverse [x] hne,
            List.getLast?_cons_cons]
          rw [hxs] at ih
          exact ih

theorem getLast_reverse_cons {α : Type} (x : α) (xs : List α)
    (h : (x :: xs).reverse ≠ []) : ((x :: xs).reverse).getLast h = x := by
  have h1 : ((x :: xs).reverse).getLast? = some (((x :: xs).reverse).getLast h) :=
    getLast?_some_getLast _ h
  have h2 : ((x :: xs).reverse).getLast? = some x := by
    rw [List.reverse_cons]
    exact getLast?_append_singleton xs.reverse x
  rw [h1] at h2
  exact Option.some.inj h2

/-- For a nonempty digit list with nonzero leading (most significant) digit,
the base58 rendering starts with a non-`'1'` character. -/
theorem countLeading_zero_reverse_map (ds : List Nat) (hne : ds ≠ [])
    (hlast : ds.getLast hne ≠ 0) (hlt : ∀ d ∈ ds, d < 58) :
    countLeading '1' (ds.reverse.map b58Char) = 0 := by
  cases hrev : ds.reverse with
  | nil => exact absurd (List.reverse_eq_nil_iff.mp hrev) hne
  | cons c cs =>
      have hc : c = ds.getLast hne := by
        have e1 : ds.reverse.head? = some c := by rw [hrev]; rfl
        rw [head?_reverse_own ds, getLast?_some_getLast ds hne] at e1
        exact (Option.some.inj e1).symm
      have hc58 : c < 58 := hlt _ (by rw [hc]; exact List.getLast_mem hne)
      have hcne : b58Char c ≠ '1' := by
        intro hx
        exact hlast (by rw [← hc]; exact (b58Char_eq_one_iff _ hc58).mp hx)
      rw [List.map_cons]
      exact countLeading_cons_ne _ _ _ hcne

theorem countLeading_one_map_b58Char : ∀ ds : List Nat, (∀ d ∈ ds, d < 58) →
    countLeading '1' (ds.map b58Char) = countLeading 0 ds := by
  intro ds
  induction ds with
  | nil => intro _; rfl
  | cons d ds ih =>
      intro h
      have hd : d < 58 := h d (List.mem_cons_self d ds)
      by_cases hd0 : d = 0
      · subst hd0
        have h1 : b58Char 0 = '1' := by decide
        have hih := ih (fun x hx => h x (List.mem_cons_of_mem 0 hx))
        simp [List.map_cons, countLeading, h1, hih]
      · have h1 : b58Char d ≠ '1' := fun hc => hd0 ((b58Char_eq_one_iff d hd).mp hc)
        simp [List.map_cons, countLeading, h1, hd0]

/-- Unfolding equation for `b58decode` on an explicit character list. -/
theorem b58decode_mk (cs : List Char) :
    b58decode ⟨cs⟩
      = match b58DigitsOf cs with
        | none => none
        | some ds =>
            some (List.replicate (countLeading '1' cs) 0
              ++ (toDigitsLE 256 (ofDigitsLE 58 ds.reverse)).reverse) := rfl

/-- Base58 decoding inverts base58 encoding on byte lists. -/
theorem b58decode_b58encode (l : List Nat) (hl : ∀ x ∈ l, x < 256) :
    b58decode (b58encode l) = some l := by
  have hdec : List.replicate (countLeading 0 l) 0 ++ dropLeading 0 l = l :=
    countLeading_dropLeading 0 l
  set z := countLeading 0 l with hz
  set l₂ := dropLeading 0 l with hl₂def
  set N := ofDigitsLE 256 l.reverse with hN
  have hNval : N = ofDigitsLE 256 l₂.reverse := by
    rw [hN]
    conv_lhs => rw [← hdec]
    rw [List.reverse_append, List.reverse_replicate, ofDigitsLE_append_replicate_zero]
  have hds58 : ∀ d ∈ Nat.digits 58 N, d < 58 :=
    fun d hd => Nat.digits_lt_base (by norm_num) hd
  have henc : b58encode l
      = ⟨List.replicate z '1' ++ (Nat.digits 58 N).reverse.map b58Char⟩ := by
    unfold b58encode
    rw [← hz, ← hN, toDigitsLE_eq_digits 58 N (by norm_num)]
  have hdigs : b58DigitsOf (List.replicate z '1' ++ (Nat.digits 58 N).reverse.map b58Char)
      = some (List.replicate z 0 ++ (Nat.digits 58 N).reverse) := by
    apply b58DigitsOf_append
    · exact b58DigitsOf_replicate_one z
    · exact b58DigitsOf_map_b58Char (Nat.digits 58 N).reverse
        (fun d hd => hds58 d (List.mem_reverse.mp hd))
  have hcount : countLeading '1'
      (List.replicate z '1' ++ (Nat.digits 58 N).reverse.map b58Char) = z := by
    rw [countLeading_replicate_append]
    cases hN0 : Nat.digits 58 N with
    | nil => simp [countLeading_nil]
    | cons d0 ds0 =>
        have hNne : N ≠ 0 := by
          intro h0
          rw [h0, Nat.digits_zero] at hN0
          exact List.cons_ne_nil d0 ds0 hN0.symm
        have hlast := Nat.getLast_digit_ne_zero 58 hNne
        have hcl := countLeading_zero_reverse_map (Nat.digits 58 N)
          (Nat.digits_ne_nil_iff_ne_zero.mpr hNne) hlast hds58
        rw [hN0] at hcl
        rw [hcl]
        omega
  rw [henc, b58decode_mk, hdigs, hcount]
  have hval : ofDigitsLE 58 ((List.replicate z 0 ++ (Nat.digits 58 N).reverse).reverse) = N := by
    rw [List.reverse_append, List.reverse_reverse, List.reverse_replicate,
      ofDigitsLE_append_replicate_zero, ofDigitsLE_eq_ofDigits, Nat.ofDigits_digits]
  dsimp only
  rw [hval, toDigitsLE_eq_digits 256 N (by norm_num)]
  cases hl2 : l₂ with
  | nil =>
      have : N = 0 := by rw [hNval, hl2]; rfl
      rw [this, Nat.digits_zero]
      rw [hl2] at hdec
      simpa using congrArg some hdec
  | cons x xs =>
      have hx0 : x ≠ 0 := dropLeading_head_ne 0 l x xs (by rw [← hl₂def, hl2])
      have hmem : ∀ y ∈ l₂.reverse, y < 256 := by
        intro y hy
        apply hl
        rw [← hdec]
        exact List.mem_append_right _ (List.mem_reverse.mp hy)
      have hlastne : ∀ h : l₂.reverse ≠ [], (l₂.reverse).getLast h ≠ 0 := by
        intro h
        have e1 : l₂.reverse.getLast? = some (l₂.reverse.getLast h) :=
          getLast?_some_getLast _ h
        have e2 : l₂.reverse.getLast? = some x := by
          rw [hl2, List.reverse_cons]
          exact getLast?_append_singleton xs.reverse x
        rw [e1] at e2
        rw [Option.some.inj e2]
        exact hx0
      have hdig : Nat.digits 256 N = l₂.reverse := by
        rw [hNval, ofDigitsLE_eq_ofDigits]
        exact Nat.digits_ofDigits 256 (by norm_num) l₂.reverse hmem hlastne
      rw [hdig, List.reverse_reverse]
      rw [hl2] at hdec ⊢
      simpa using congrArg some hdec

/-- Base58 encoding inverts base58 decoding: every string the decoder
accepts is the canonical rendering of its decoded bytes. -/
theorem b58encode_b58decode (s : String) (l : List Nat) (h : b58decode s = some l) :
    b58encode l = s := by
  obtain ⟨cs⟩ := s
  rw [b58decode_mk] at h
  cases hds : b58DigitsOf cs with
  | none => rw [hds] at h; simp at h
  | some ds =>
      rw [hds] at h
      dsimp only at h
      obtain ⟨hchars, hlt⟩ := b58DigitsOf_inv cs ds hds
      have hdsdec : List.replicate (countLeading 0 ds) 0 ++ dropLeading 0 ds = ds :=
        countLeading_dropLeading 0 ds
      set z := countLeading 0 ds with hz
      set ds₂ := dropLeading 0 ds with hds₂def
      set M := ofDigitsLE 58 ds.reverse with hM
      have hM2 : M = ofDigitsLE 58 ds₂.reverse := by
        rw [hM]
        conv_lhs => rw [← hdsdec]
        rw [List.reverse_append, List.reverse_replicate, ofDigitsLE_append_replicate_zero]
      have hcountc : countLeading '1' cs = z := by
        rw [hchars, countLeading_one_map_b58Char ds hlt]
      rw [hcountc] at h
      have hl : l = List.replicate z 0 ++ (toDigitsLE 256 M).reverse :=
        (Option.some.inj h).symm
      have hone : b58Char 0 = '1' := by decide
      have hmapds : List.map b58Char ds
          = List.replicate z '1' ++ List.map b58Char ds₂ := by
        conv_lhs => rw [← hdsdec]
        rw [List.map_append, List.map_replicate, hone]
      cases hds2 : ds₂ with
      | nil =>
          have hM0 : M = 0 := by rw [hM2, hds2]; rfl
          have hl0 : l = List.replicate z 0 := by
            rw [hl, hM0]
            simp [toDigitsLE, toDigitsLEAux]
          have hcl : countLeading 0 l = z := by
            rw [hl0]
            have := countLeading_replicate_append 0 z ([] : List Nat)
            simpa using this
          have hval0 : ofDigitsLE 256 l.reverse = 0 := by
            rw [hl0, List.reverse_replicate, ofDigitsLE_replicate_zero]
          unfold b58encode
          rw [hcl, hval0]
          have hdig0 : toDigitsLE 58 0 = [] := rfl
          rw [hdig0]
          have : cs = List.replicate z '1' := by
            rw [hchars, hmapds, hds2]
            simp
          rw [this]
          simp
      | cons d0 ds₂' =>
          have hd0 : d0 ≠ 0 := dropLeading_head_ne 0 ds d0 ds₂' (by rw [← hds₂def, hds2])
          have hlt₂ : ∀ d ∈ ds₂.reverse, d < 58 := by
            intro d hd
            apply hlt
            rw [← hdsdec]
            exact List.mem_append_right _ (List.mem_reverse.mp hd)
          have hlast₂ : ∀ h2 : ds₂.reverse ≠ [], (ds₂.reverse).getLast h2 ≠ 0 := by
            intro h2
            have e1 : ds₂.reverse.getLast? = some (ds₂.reverse.getLast h2) :=
              getLast?_some_getLast _ h2
            have e2 : ds₂.reverse.getLast? = some d0 := by
              rw [hds2, List.reverse_cons]
              exact getLast?_append_singleton _ d0
            rw [e1] at e2
            rw [Option.some.inj e2]
            exact hd0
          have hMpos : 0 < M := by
            rw [hM2]
            apply ofDigitsLE_pos_of_getLast_ne_zero 58 (by norm_num)
              ds₂.reverse (by rw [hds2]; simp)
            apply hlast₂
          have hdig58 : Nat.digits 58 M = ds₂.reverse := by
            rw [hM2, ofDigitsLE_eq_ofDigits]
            exact Nat.digits_ofDigits 58 (by norm_num) ds₂.reverse hlt₂ hlast₂
          -- the byte rendering of M
          have hB58 : ∀ d ∈ Nat.digits 256 M, d < 256 :=
            fun d hd => Nat.digits_lt_base (by norm_num) hd
          have hBne : Nat.digits 256 M ≠ [] :=
            Nat.digits_ne_nil_iff_ne_zero.mpr (by omega)
          have hl₁ : l = List.replicate z 0 ++ (Nat.digits 256 M).reverse := by
            rw [hl, toDigitsLE_eq_digits 256 M (by norm_num)]
          have hclB : countLeading 0 ((Nat.digits 256 M).reverse) = 0 := by
            cases hrev : (Nat.digits 256 M).reverse with
            | nil => exact absurd (List.reverse_eq_nil_iff.mp hrev) hBne
            | cons c cc =>
                have e1 : (Nat.digits 256 M).reverse.head? = some c := by
                  rw [hrev]; rfl
                rw [head?_reverse_own, getLast?_some_getLast _ hBne] at e1
                have hc := Option.some.inj e1
                apply countLeading_cons_ne
                rw [← hc]
                exact Nat.getLast_digit_ne_zero 256 (by omega)
          have hcl : countLeading 0 l = z := by
            rw [hl₁, countLeading_replicate_append, hclB]
            omega
          have hvalM : ofDigitsLE 256 l.reverse = M := by
            rw [hl₁, List.reverse_append, List.reverse_reverse, List.reverse_replicate,
              ofDigitsLE_append_replicate_zero, ofDigitsLE_eq_ofDigits, Nat.ofDigits_digits]
          unfold b58encode
          rw [hcl, hvalM, toDigitsLE_eq_digits 58 M (by norm_num), hdig58,
            List.reverse_reverse]
          have : cs = List.replicate z '1' ++ List.map b58Char ds₂ := by
            rw [hchars, hmapds]
          rw [this, hds2]

/-! ## Protocols (spec §3: code, name, size rule, codec kind) -/

inductive PSize where
  | fixedBits (bits : Nat)
  | lengthVar
  | pathMark
deriving DecidableEq, Repr

structure Protocol where
  code : Nat
  name : String
  size : PSize
  codec : String
deriving DecidableEq, Repr

def P_IP4 : Protocol := ⟨4, "ip4", .fixedBits 32, "ip4"⟩
def P_TCP : Protocol := ⟨6, "tcp", .fixedBits 16, "uint16be"⟩
def P_UDP : Protocol := ⟨273, "udp", .fixedBits 16, "uint16be"⟩
def P_P2P : Protocol := ⟨421, "p2p", .lengthVar, "cid"⟩
def P_IP6 : Protocol := ⟨41, "ip6", .fixedBits 128, "ip6"⟩

/-- Modelled from the spec: the protocol registry (`multiaddr/protocols.py` is
not in the source snapshot); the protocols exercised by the claims, with the
standard multiaddr codes visible in the wire-format vectors of §6/§8. -/
def REGISTRY : List Protocol := [P_IP4, P_TCP, P_UDP, P_P2P]

/-- The registry extended with the tests' unparsable dummy protocol
(code 333, codec `"?"`), as built by the `protocol_extension` fixture. -/
def P_UNPARSABLE : Protocol := ⟨333, "unparsable", .lengthVar, "?"⟩

def EXT_REGISTRY : List Protocol := REGISTRY ++ [P_UNPARSABLE]

/-! ## The p2p codec (`multiaddr/codecs/p2p.py`) -/

namespace p2p

/-- `p2p.to_bytes`: base58-decode the peer-id string, reject multihashes
shorter than 5 bytes, and prepend the varint length of the decoded bytes.
(The Python 2 unicode re-encoding branch of the source is a no-op here.) -/
def to_bytes (proto : Protocol) (string : String) : Except MAErr (List Nat) :=
  match b58decode string with
  | none => .error .valueError
  | some mm =>
      let size := varintEncode mm.length
      if mm.length < 5 then .error .valueError
      else .ok (size ++ mm)

/-- `p2p.to_string`: read the leading varint, check it matches the number of
remaining bytes, and base58-encode those bytes. -/
def to_string (proto : Protocol) (buf : List Nat) : Except MAErr String :=
  match varintDecode buf with
  | none => .error .parseFail
  | some (size, num_bytes_read) =>
      let buf2 := buf.drop num_bytes_read
      if buf2.length ≠ size then .error .valueError
      else .ok (b58encode buf2)

end p2p

/-- Successful `p2p.to_bytes` output decomposed: the decoded multihash is at
least 5 bytes and the output is its canonical varint length prefix plus the
multihash itself. -/
theorem p2p_to_bytes_ok_inv (proto : Protocol) (s : String) (bs : List Nat)
    (h : p2p.to_bytes proto s = .ok bs) :
    ∃ mm, b58decode s = some mm ∧ 5 ≤ mm.length
      ∧ bs = varintEncode mm.length ++ mm := by
  unfold p2p.to_bytes at h
  cases hdec : b58decode s with
  | none => rw [hdec] at h; exact absurd h (by simp)
  | some mm =>
      rw [hdec] at h
      dsimp only at h
      by_cases hlen : mm.length < 5
      · rw [if_pos hlen] at h; exact absurd h (by simp)
      · rw [if_neg hlen] at h
        exact ⟨mm, rfl, by omega, (Except.ok.inj h).symm⟩

/-- `p2p.to_string` accepts every canonical buffer `varint(len mm) ++ mm` and
renders the payload in base58. -/
theorem p2p_to_string_canonical (proto : Protocol) (mm : List Nat) :
    p2p.to_string proto (varintEncode mm.length ++ mm) = .ok (b58encode mm) := by
  unfold p2p.to_string
  rw [varintDecode_encode mm.length mm]
  dsimp only
  rw [List.drop_left]
  simp

/-- C2, counterexample: the buffer `[0x01, 0x00]` is accepted by the p2p
codec's `to_string` (canonical varint `1`, one payload byte), but feeding the
resulting string `"1"` back to `to_bytes` fails the 5-byte multihash check,
so the byte-direction round trip of the claim is false as stated. -/
theorem p2p_roundtrip_counterexample :
    p2p.to_string P_P2P [1, 0] = .ok "1"
    ∧ p2p.to_bytes P_P2P "1" = .error .valueError
    ∧ p2p.to_bytes P_P2P "1" ≠ .ok [1, 0] := by
  refine ⟨rfl, rfl, ?_⟩
  intro h
  rw [show p2p.to_bytes P_P2P "1" = (.error .valueError : Except MAErr (List Nat))
    from rfl] at h
  exact absurd h (by simp)

/-- C2 (amended): for the p2p codec, the string-direction round trip holds
for every accepted string, and the byte-direction round trip holds exactly
for the buffers `to_bytes` can produce: a canonical varint length prefix
followed by that many payload bytes, at least 5 of them. -/
theorem p2p_roundtrip_amended :
    (∀ (proto proto2 : Protocol) (s : String) (bs : List Nat),
        p2p.to_bytes proto s = .ok bs → p2p.to_string proto2 bs = .ok s)
    ∧ (∀ (proto proto2 : Protocol) (mm : List Nat), 5 ≤ mm.length →
        (∀ x ∈ mm, x < 256) →
        p2p.to_string proto (varintEncode mm.length ++ mm) = .ok (b58encode mm)
        ∧ p2p.to_bytes proto2 (b58encode mm) = .ok (varintEncode mm.length ++ mm)) := by
  constructor
  · intro proto proto2 s bs h
    obtain ⟨mm, hdec, hlen, rfl⟩ := p2p_to_bytes_ok_inv proto s bs h
    rw [p2p_to_string_canonical proto2 mm, b58encode_b58decode s mm hdec]
  · intro proto proto2 mm hlen h256
    refine ⟨p2p_to_string_canonical proto mm, ?_⟩
    unfold p2p.to_bytes
    rw [b58decode_b58encode mm h256]
    dsimp only
    rw [if_neg (by omega)]

/-- C2 witness: both round-trip directions at the 5-zero-byte multihash,
whose base58 rendering is `"11111"`. -/
theorem p2p_roundtrip_amended_witness :
    p2p.to_string P_P2P [5, 0, 0, 0, 0, 0] = .ok "11111"
    ∧ p2p.to_bytes P_P2P "11111" = .ok [5, 0, 0, 0, 0, 0] := by
  have h := p2p_roundtrip_amended.2 P_P2P P_P2P [0, 0, 0, 0, 0]
    (by decide) (by decide)
  have e1 : varintEncode (List.length [0, 0, 0, 0, 0]) ++ [0, 0, 0, 0, 0]
      = [5, 0, 0, 0, 0, 0] := rfl
  have e2 : b58encode [0, 0, 0, 0, 0] = "11111" := rfl
  rw [e1, e2] at h
  exact h

/-- C5: every string whose base58 decoding yields fewer than 5 bytes is
rejected by the p2p codec's `to_bytes`. -/
theorem p2p_to_bytes_short_fails (proto : Protocol) (s : String)
    (mm : List Nat) (hdec : b58decode s = some mm) (hlen : mm.length < 5) :
    p2p.to_bytes proto s = .error .valueError := by
  unfold p2p.to_bytes
  rw [hdec]
  dsimp only
  rw [if_pos hlen]

/-- C5 witness: `"1"` decodes to the single byte `0x00` and is rejected. -/
theorem p2p_to_bytes_short_fails_witness :
    b58decode "1" = some [0] ∧ p2p.to_bytes P_P2P "1" = .error .valueError :=
  ⟨rfl, p2p_to_bytes_short_fails P_P2P "1" [0] rfl (by decide)⟩

/-- C7: when the leading varint of a buffer decodes, the p2p codec's
`to_string` fails if the declared length differs from the number of
remaining bytes, and any successful result forces the two to be equal. -/
theorem p2p_to_string_length_consistency (proto : Protocol) (buf : List Nat)
    (size k : Nat) (hdec : varintDecode buf = some (size, k)) :
    ((buf.drop k).length ≠ size → p2p.to_string proto buf = .error .valueError)
    ∧ (∀ s, p2p.to_string proto buf = .ok s → (buf.drop k).length = size) := by
  constructor
  · intro hne
    unfold p2p.to_string
    rw [hdec]
    dsimp only
    rw [if_pos hne]
  · intro s hs
    unfold p2p.to_string at hs
    rw [hdec] at hs
    dsimp only at hs
    by_cases hne : (buf.drop k).length ≠ size
    · rw [if_pos hne] at hs
      exact absurd hs (by simp)
    · omega

/-- C7 witness: the buffer `[0x02, 0x00]` declares 2 payload bytes but
carries 1, so `to_string` fails with the inconsistent-lengths error. -/
theorem p2p_to_string_length_consistency_witness :
    p2p.to_string P_P2P [2, 0] = .error .valueError
    ∧ (∀ s, p2p.to_string P_P2P [2, 0] = .ok s
        → (List.drop 1 [2, 0]).length = 2) := by
  have h := p2p_to_string_length_consistency P_P2P [2, 0] 2 1 rfl
  exact ⟨h.1 (by decide), h.2⟩

/-- C9: the p2p codec's `to_string` never reads its protocol argument, so
its result is identical for any two protocols. -/
theorem p2p_to_string_proto_irrelevant (p1 p2 : Protocol) (buf : List Nat) :
    p2p.to_string p1 buf = p2p.to_string p2 buf := rfl

/-- C10: every byte string `to_bytes` returns is a canonical varint length
prefix followed by exactly that many payload bytes (at least 5), and is
therefore accepted by `to_string`; the inconsistent-lengths branch is
unreachable on such outputs. -/
theorem p2p_to_bytes_output_accepted (proto proto2 : Protocol) (s : String)
    (bs : List Nat) (h : p2p.to_bytes proto s = .ok bs) :
    ∃ mm, bs = varintEncode mm.length ++ mm ∧ 5 ≤ mm.length
      ∧ p2p.to_string proto2 bs = .ok (b58encode mm) := by
  obtain ⟨mm, hdec, hlen, rfl⟩ := p2p_to_bytes_ok_inv proto s bs h
  exact ⟨mm, rfl, hlen, p2p_to_string_canonical proto2 mm⟩

/-- C10 witness: the output of `to_bytes` on `"11111"` is accepted by
`to_string`. -/
theorem p2p_to_bytes_output_accepted_witness :
    ∃ mm, ([5, 0, 0, 0, 0, 0] : List Nat) = varintEncode mm.length ++ mm
      ∧ 5 ≤ mm.length
      ∧ p2p.to_string P_P2P [5, 0, 0, 0, 0, 0] = .ok (b58encode mm) :=
  p2p_to_bytes_output_accepted P_P2P P_P2P "11111" [5, 0, 0, 0, 0, 0] rfl

/-! ## Base32 (RFC 4648 lower-case, no padding: the multibase `b` encoding
used for the modern CIDv1 string form) -/

def B32_ALPHABET : List Char :=
  ['a', 'b', 'c', 'd', 'e', 'f', 'g', 'h', 'i', 'j', 'k', 'l', 'm',
   'n', 'o', 'p', 'q', 'r', 's', 't', 'u', 'v', 'w', 'x', 'y', 'z',
   '2', '3', '4', '5', '6', '7']

def byteBits (b : Nat) : List Bool :=
  [b.testBit 7, b.testBit 6, b.testBit 5, b.testBit 4,
   b.testBit 3, b.testBit 2, b.testBit 1, b.testBit 0]

def bytesToBits : List Nat → List Bool
  | [] => []
  | b :: bs => byteBits b ++ bytesToBits bs

def bitsVal (bits : List Bool) : Nat :=
  bits.foldl (fun a b => 2 * a + (if b then 1 else 0)) 0

/-- Group a most-significant-bit-first bit stream into 5-bit quantities,
zero-padding the final group. -/
def toQuints : List Bool → List Nat
  | [] => []
  | [a] => [bitsVal [a, false, false, false, false]]
  | [a, b] => [bitsVal [a, b, false, false, false]]
  | [a, b, c] => [bitsVal [a, b, c, false, false]]
  | [a, b, c, d] => [bitsVal [a, b, c, d, false]]
  | a :: b :: c :: d :: e :: rest => bitsVal [a, b, c, d, e] :: toQuints rest

def base32encode (l : List Nat) : List Char :=
  (toQuints (bytesToBits l)).map (fun q => B32_ALPHABET.getD q 'a')

def quintBits (q : Nat) : List Bool :=
  [q.testBit 4, q.testBit 3, q.testBit 2, q.testBit 1, q.testBit 0]

def quintsToBits : List Nat → List Bool
  | [] => []
  | q :: qs => quintBits q ++ quintsToBits qs

/-- Group bits back into bytes, discarding the (zero) padding bits of the
final partial group. -/
def bitsToBytes : List Bool → List Nat
  | a :: b :: c :: d :: e :: f :: g :: h :: rest =>
      bitsVal [a, b, c, d, e, f, g, h] :: bitsToBytes rest
  | _ => []

def b32DigitsOf : List Char → Option (List Nat)
  | [] => some []
  | c :: cs =>
      match idxOf? c B32_ALPHABET, b32DigitsOf cs with
      | some d, some ds => some (d :: ds)
      | _, _ => none

def base32decode (cs : List Char) : Option (List Nat) :=
  (b32DigitsOf cs).map (fun qs => bitsToBytes (quintsToBits qs))

/-! ## The content-identifier (`cid`) codec -/

def LIBP2P_KEY_TAG : Nat := 0x72

/-- Modelled from the spec: the required CIDv1 codec tag per protocol
(`multiaddr/codecs/cid.py` is not in the source snapshot); only the p2p
protocol requires a specific key type, the libp2p-key tag `0x72`
(§4.3, §8). -/
def expectedCodecTag (proto : Protocol) : Option Nat :=
  if proto.name = "p2p" then some LIBP2P_KEY_TAG else none

/-- Modelled from the spec: `cid_decode` of the external CID collaborator
(§6): a buffer starting with the version byte `1` is a CIDv1
`version || codec_tag || multihash`; anything else (of viable length) is a
legacy bare multihash, rendered as version 0. -/
def cidDecode (b : List Nat) : Option (Nat × Nat × List Nat) :=
  match b with
  | 1 :: tag :: mh => some (1, tag, mh)
  | _ => if 2 ≤ b.length then some (0, 0x70, b) else none

/-- Modelled from the spec: a legacy base58 multihash peer-id string starts
with the CIDv0 prefixes `Qm` (sha2-256) or `12` (identity key) (§4.3). -/
def isLegacyB58 (s : String) : Bool :=
  match s.data with
  | 'Q' :: 'm' :: _ => true
  | '1' :: '2' :: _ => true
  | _ => false

/-- Modelled from the spec: parsing the modern self-describing CID string
form — multibase prefix `b` followed by base32 of the CID bytes. -/
def cidParseModern (s : String) : Option (List Nat) :=
  match s.data with
  | 'b' :: rest => base32decode rest
  | _ => none

/-- Modelled from the spec: the cid codec's `to_bytes`
(`multiaddr/codecs/cid.py` is not in the source snapshot).  A legacy base58
multihash string is decoded and, when the protocol requires a specific key
type, normalized to the CIDv1 binary form (§4.3, §8); a modern CID string is
parsed via multibase and rejected if its codec tag differs from the
required key type. -/
def cid_to_bytes (proto : Protocol) (string : String) : Except MAErr (List Nat) :=
  if isLegacyB58 string then
    match b58decode string with
    | none => .error .valueError
    | some mm =>
        if mm.length < 5 then .error .valueError
        else
          match expectedCodecTag proto with
          | some tag => .ok (1 :: tag :: mm)
          | none => .ok mm
  else
    match cidParseModern string with
    | none => .error .valueError
    | some bs =>
        match cidDecode bs with
        | none => .error .valueError
        | some (_, tag, _) =>
            match expectedCodecTag proto with
            | some t => if tag = t then .ok bs else .error .valueError
            | none => .ok bs

/-- Modelled from the spec: the cid codec's `to_string`.  A legacy bare
multihash buffer renders as base58; a CIDv1 buffer under a protocol that
requires a specific key type renders its multihash as legacy base58 after
the tag check, and otherwise renders as the modern multibase base32 string
(§4.3, §8). -/
def cid_to_string (proto : Protocol) (buf : List Nat) : Except MAErr String :=
  match cidDecode buf with
  | none => .error .valueError
  | some (0, _, _) => .ok (b58encode buf)
  | some (_, tag, mh) =>
      match expectedCodecTag proto with
      | some t => if tag = t then .ok (b58encode mh) else .error .valueError
      | none => .ok ⟨'b' :: base32encode buf⟩

/-- The CIDv1 libp2p-key binary form of the demo peer-id
`12D3KooWPA6ax6t3jqTyGq73Zm1RmwppYqxaXzrtarfcTWGp5Wzx`. -/
def cidV1demoBytes : List Nat :=
  [0x01, 0x72, 0x00, 0x24, 0x08, 0x01, 0x12, 0x20,
   0xc6, 0x35, 0xed, 0x47, 0x2d, 0x58, 0xed, 0xd8,
   0xb9, 0xee, 0x46, 0x41, 0xec, 0x75, 0x57, 0xdc,
   0x80, 0x6b, 0x48, 0x86, 0xe5, 0x68, 0x49, 0x1a,
   0xb0, 0x0b, 0xff, 0x12, 0x69, 0xa7, 0xbe, 0x65]

/-- The same CID re-tagged with the dag-pb codec `0x70` instead of
libp2p-key. -/
def cidDagPbBytes : List Nat :=
  [0x01, 0x70, 0x00, 0x24, 0x08, 0x01, 0x12, 0x20,
   0xc6, 0x35, 0xed, 0x47, 0x2d, 0x58, 0xed, 0xd8,
   0xb9, 0xee, 0x46, 0x41, 0xec, 0x75, 0x57, 0xdc,
   0x80, 0x6b, 0x48, 0x86, 0xe5, 0x68, 0x49, 0x1a,
   0xb0, 0x0b, 0xff, 0x12, 0x69, 0xa7, 0xbe, 0x65]

/-- C4: encoding the legacy base58 p2p string under the p2p protocol yields
the CIDv1 binary form tagged `0x72`; decoding it back under p2p yields the
original legacy string, and decoding it under a generic (non-p2p) protocol
yields the modern self-describing multibase string instead. -/
theorem cid_autoconvert_demo :
    cid_to_bytes P_P2P "12D3KooWPA6ax6t3jqTyGq73Zm1RmwppYqxaXzrtarfcTWGp5Wzx"
      = .ok cidV1demoBytes
    ∧ cidDecode cidV1demoBytes
      = some (1, 0x72, cidV1demoBytes.drop 2)
    ∧ cid_to_string P_P2P cidV1demoBytes
      = .ok "12D3KooWPA6ax6t3jqTyGq73Zm1RmwppYqxaXzrtarfcTWGp5Wzx"
    ∧ cid_to_string P_IP6 cidV1demoBytes
      = .ok "bafzaajaiaejcbrrv5vds2whn3c464rsb5r2vpxeanneinzlijenlac77cju2pptf" :=
  ⟨rfl, rfl, rfl, rfl⟩

/-- C6: under the p2p protocol, the cid codec rejects every modern CID
string and every CIDv1 buffer whose codec tag is not the required
libp2p-key tag `0x72`, in both conversion directions. -/
theorem cid_wrong_codec_tag_fails :
    (∀ (s : String) (bs : List Nat) (tag : Nat) (mh : List Nat),
        isLegacyB58 s = false → cidParseModern s = some bs →
        cidDecode bs = some (1, tag, mh) → tag ≠ LIBP2P_KEY_TAG →
        cid_to_bytes P_P2P s = .error .valueError)
    ∧ (∀ (buf : List Nat) (tag : Nat) (mh : List Nat),
        cidDecode buf = some (1, tag, mh) → tag ≠ LIBP2P_KEY_TAG →
        cid_to_string P_P2P buf = .error .valueError) := by
  have hexp : expectedCodecTag P_P2P = some LIBP2P_KEY_TAG := rfl
  constructor
  · intro s bs tag mh hleg hparse hdec htag
    unfold cid_to_bytes
    rw [hleg]
    simp only [Bool.false_eq_true, if_false]
    rw [hparse]
    dsimp only
    rw [hdec]
    dsimp only
    rw [hexp]
    dsimp only
    rw [if_neg htag]
  · intro buf tag mh hdec htag
    unfold cid_to_string
    rw [hdec]
    dsimp only
    rw [hexp]
    dsimp only
    rw [if_neg htag]

/-- C6 witness: the dag-pb-tagged CID is rejected in both directions, as a
modern string (`bafy…`) and as a binary buffer. -/
theorem cid_wrong_codec_tag_fails_witness :
    cid_to_bytes P_P2P
        "bafyaajaiaejcbrrv5vds2whn3c464rsb5r2vpxeanneinzlijenlac77cju2pptf"
      = .error .valueError
    ∧ cid_to_string P_P2P cidDagPbBytes = .error .valueError := by
  constructor
  · exact cid_wrong_codec_tag_fails.1
      "bafyaajaiaejcbrrv5vds2whn3c464rsb5r2vpxeanneinzlijenlac77cju2pptf"
      cidDagPbBytes 0x70 (cidDagPbBytes.drop 2) rfl rfl rfl (by decide)
  · exact cid_wrong_codec_tag_fails.2
      cidDagPbBytes 0x70 (cidDagPbBytes.drop 2) rfl (by decide)

/-! ## Decimal strings and the fixed-size codecs -/

def DEC_CHARS : List Char := ['0', '1', '2', '3', '4', '5', '6', '7', '8', '9']

def natToDec (n : Nat) : List Char :=
  if n = 0 then ['0']
  else (toDigitsLE 10 n).reverse.map (fun d => DEC_CHARS.getD d '0')

def parseDecAux : List Char → Nat → Option Nat
  | [], acc => some acc
  | c :: cs, acc =>
      match idxOf? c DEC_CHARS with
      | none => none
      | some d => parseDecAux cs (acc * 10 + d)

/-- Decimal value of a nonempty digit string, `none` otherwise. -/
def parseDec? (cs : List Char) : Option Nat :=
  match cs with
  | [] => none
  | _ => parseDecAux cs 0

/-- Split a character list on a separator; `splitChar c s` always returns at
least one (possibly empty) component, like Python's `str.split`. -/
def splitChar (sep : Char) : List Char → List (List Char)
  | [] => [[]]
  | c :: cs =>
      let r := splitChar sep cs
      if c = sep then [] :: r
      else
        match r with
        | [] => [[c]]
        | a :: as => (c :: a) :: as

/-- Modelled from the spec: the IPv4 codec (`multiaddr/codecs/ip4.py` is not
in the source snapshot): four dotted decimal octets, each `≤ 255`, to four
raw bytes (§4.3, §6). -/
def ip4_to_bytes (proto : Protocol) (string : String) : Except MAErr (List Nat) :=
  match splitChar '.' string.data with
  | [a, b, c, d] =>
      match parseDec? a, parseDec? b, parseDec? c, parseDec? d with
      | some x, some y, some z, some w =>
          if x ≤ 255 ∧ y ≤ 255 ∧ z ≤ 255 ∧ w ≤ 255 then .ok [x, y, z, w]
          else .error .valueError
      | _, _, _, _ => .error .valueError
  | _ => .error .valueError

/-- Modelled from the spec: the IPv4 codec's rendering of four raw bytes as
dotted decimal. -/
def ip4_to_string (proto : Protocol) (buf : List Nat) : Except MAErr String :=
  match buf with
  | [x, y, z, w] =>
      .ok ⟨natToDec x ++ '.' :: natToDec y ++ '.' :: natToDec z ++ '.' :: natToDec w⟩
  | _ => .error .valueError

/-- Modelled from the spec: the 16-bit big-endian port codec used by tcp and
udp; values outside the 16-bit unsigned range are rejected (§4.3, §6). -/
def uint16be_to_bytes (proto : Protocol) (string : String) : Except MAErr (List Nat) :=
  match parseDec? string.data with
  | none => .error .valueError
  | some n => if n < 65536 then .ok [n / 256, n % 256] else .error .valueError

/-- Modelled from the spec: rendering a 2-byte big-endian port as decimal. -/
def uint16be_to_string (proto : Protocol) (buf : List Nat) : Except MAErr String :=
  match buf with
  | [a, b] => .ok ⟨natToDec (a * 256 + b)⟩
  | _ => .error .valueError

structure CodecImpl where
  to_bytes : Protocol → String → Except MAErr (List Nat)
  to_string : Protocol → List Nat → Except MAErr String

def ip4Codec : CodecImpl := ⟨ip4_to_bytes, ip4_to_string⟩
def uint16beCodec : CodecImpl := ⟨uint16be_to_bytes, uint16be_to_string⟩
def cidCodec : CodecImpl := ⟨cid_to_bytes, cid_to_string⟩

/-- Modelled from the spec: codec dispatch by codec-kind name
(`multiaddr/codecs/__init__.py` is not in the source snapshot); unknown
kinds — such as the tests' `"?"` — have no codec. -/
def codecByName : String → Option CodecImpl
  | "ip4" => some ip4Codec
  | "uint16be" => some uint16beCodec
  | "cid" => some cidCodec
  | _ => none

/-! ## The transform engine (`multiaddr/transforms.py`) -/

/-- Modelled from the spec: `size_for_addr` (§4.3): value size in bytes and
the number of length-prefix bytes consumed at the cursor — the declared
fixed width for fixed-size codecs, a leading varint for length-prefixed
codecs, the whole remaining buffer for path codecs. -/
def size_for_addr (size : PSize) (buf : List Nat) : Option (Nat × Nat) :=
  match size with
  | .fixedBits bits => some (bits / 8, 0)
  | .lengthVar => varintDecode buf
  | .pathMark => some (buf.length, 0)

/-- Modelled from the spec: `bytes_iter` (§4.4): repeatedly read a varint
protocol code, look the protocol up, resolve the segment size, and emit
`(offset, protocol, size, value-bytes)` records; any unknown code, varint
failure or overrun of the buffer end is a `BinaryParseError`.  The fuel is
the buffer length, an upper bound on the number of segments since every
segment consumes at least its one-byte-or-more code. -/
def bytes_iter_aux (reg : List Protocol) :
    Nat → Nat → List Nat → Except MAErr (List (Nat × Protocol × Nat × List Nat))
  | _, _, [] => .ok []
  | 0, _, _ :: _ => .error .binaryParse
  | fuel + 1, offset, b :: bs =>
      match varintDecode (b :: bs) with
      | none => .error .binaryParse
      | some (code, k) =>
          match reg.find? (fun p => p.code == code) with
          | none => .error .binaryParse
          | some proto =>
              let rest := (b :: bs).drop k
              match size_for_addr proto.size rest with
              | none => .error .binaryParse
              | some (size, k2) =>
                  if size ≤ (rest.drop k2).length then
                    match bytes_iter_aux reg fuel (offset + k + k2 + size)
                        ((rest.drop k2).drop size) with
                    | .error e => .error e
                    | .ok segs =>
                        .ok ((offset, proto, size, (rest.drop k2).take size) :: segs)
                  else .error .binaryParse

def bytes_iter (reg : List Protocol) (buf : List Nat) :
    Except MAErr (List (Nat × Protocol × Nat × List Nat)) :=
  bytes_iter_aux reg buf.length 0 buf

/-- Modelled from the spec: rendering of the iterated segments (§4.4): for
each segment emit `/name` and, unless the segment is zero-sized, `/` plus
the codec's string form of the value; codec lookup or conversion failures
become `BinaryParseError`. -/
def b2s_render : List (Nat × Protocol × Nat × List Nat) → Except MAErr (List Char)
  | [] => .ok []
  | (_, proto, size, part) :: rest =>
      if size = 0 then
        match b2s_render rest with
        | .error e => .error e
        | .ok tail => .ok ('/' :: proto.name.data ++ tail)
      else
        match codecByName proto.codec with
        | none => .error .binaryParse
        | some c =>
            match c.to_string proto part with
            | .error _ => .error .binaryParse
            | .ok v =>
                match b2s_render rest with
                | .error e => .error e
                | .ok tail => .ok ('/' :: proto.name.data ++ '/' :: v.data ++ tail)

/-- Modelled from the spec: `bytes_to_string` (§4.4): iterate the binary
segments and join the rendered fragments; every failure surfaces as
`BinaryParseError`. -/
def bytes_to_string (reg : List Protocol) (buf : List Nat) : Except MAErr String :=
  match bytes_iter reg buf with
  | .error _ => .error .binaryParse
  | .ok segs =>
      match b2s_render segs with
      | .error _ => .error .binaryParse
      | .ok cs => .ok ⟨cs⟩

def joinSlash : List (List Char) → List Char
  | [] => []
  | [x] => x
  | x :: y :: rest => x ++ '/' :: joinSlash (y :: rest)

/-- Modelled from the spec: the component loop of `string_to_bytes` (§4.4):
consume `(protocol-name, value)` component pairs — a path-style protocol
swallows all remaining components — emitting `varint(code)`, a varint
length prefix for length-prefixed codecs, and the codec's bytes; a name
missing from the registry, a missing value, an unknown codec or any codec
failure is a `StringParseError`. -/
def s2b_components (reg : List Protocol) : List (List Char) → Except MAErr (List Nat)
  | [] => .ok []
  | name :: rest =>
      match reg.find? (fun p => p.name.data == name) with
      | none => .error .stringParse
      | some proto =>
          match codecByName proto.codec with
          | none => .error .stringParse
          | some c =>
              match rest with
              | [] => .error .stringParse
              | v :: rest2 =>
                  if proto.size = PSize.pathMark then
                    match c.to_bytes proto ⟨joinSlash (v :: rest2)⟩ with
                    | .error _ => .error .stringParse
                    | .ok bs => .ok (varintEncode proto.code ++ bs)
                  else
                    match c.to_bytes proto ⟨v⟩ with
                    | .error _ => .error .stringParse
                    | .ok bs =>
                        match s2b_components reg rest2 with
                        | .error _ => .error .stringParse
                        | .ok bs2 =>
                            .ok ((varintEncode proto.code
                              ++ (if proto.size = PSize.lengthVar
                                  then varintEncode bs.length else [])
                              ++ bs) ++ bs2)

/-- Modelled from the spec: `string_to_bytes` (§4.4): the input must start
with `/`; the leading empty component is discarded and the rest are
consumed pairwise. -/
def string_to_bytes (reg : List Protocol) (string : String) : Except MAErr (List Nat) :=
  match splitChar '/' string.data with
  | [] :: comps => s2b_components reg comps
  | _ => .error .stringParse

/-- Every outcome of the component loop is a success or the public
`StringParseError`: each failure branch, including the wrapped codec
failures, yields exactly that error kind. -/
theorem s2b_components_ok_or (reg : List Protocol) (comps : List (List Char)) :
    (∃ bs, s2b_components reg comps = .ok bs)
    ∨ s2b_components reg comps = .error .stringParse := by
  match comps with
  | [] => exact Or.inl ⟨[], rfl⟩
  | name :: rest =>
      unfold s2b_components
      split
      · exact Or.inr rfl
      · split
        · exact Or.inr rfl
        · split
          · exact Or.inr rfl
          · split
            · split
              · exact Or.inr rfl
              · exact Or.inl ⟨_, rfl⟩
            · split
              · exact Or.inr rfl
              · split
                · exact Or.inr rfl
                · exact Or.inl ⟨_, rfl⟩

theorem string_to_bytes_ok_or (reg : List Protocol) (s : String) :
    (∃ bs, string_to_bytes reg s = .ok bs)
    ∨ string_to_bytes reg s = .error .stringParse := by
  unfold string_to_bytes
  split
  · exact s2b_components_ok_or reg _
  · exact Or.inr rfl

theorem bytes_to_string_ok_or (reg : List Protocol) (b : List Nat) :
    (∃ str, bytes_to_string reg b = .ok str)
    ∨ bytes_to_string reg b = .error .binaryParse := by
  unfold bytes_to_string
  cases bytes_iter reg b with
  | error e => exact Or.inr rfl
  | ok segs =>
      dsimp only
      cases b2s_render segs with
      | error e => exact Or.inr rfl
      | ok cs => exact Or.inl ⟨⟨cs⟩, rfl⟩

/-- C1: the concatenated multiaddr string converts to exactly the 17-byte
wire buffer, and back. -/
theorem string_bytes_concat_roundtrip :
    string_to_bytes REGISTRY "/ip4/127.0.0.1/udp/1234/ip4/127.0.0.1/tcp/4321"
      = .ok [0x04, 0x7f, 0x00, 0x00, 0x01, 0x91, 0x02, 0x04, 0xd2,
             0x04, 0x7f, 0x00, 0x00, 0x01, 0x06, 0x10, 0xe1]
    ∧ bytes_to_string REGISTRY
        [0x04, 0x7f, 0x00, 0x00, 0x01, 0x91, 0x02, 0x04, 0xd2,
         0x04, 0x7f, 0x00, 0x00, 0x01, 0x06, 0x10, 0xe1]
      = .ok "/ip4/127.0.0.1/udp/1234/ip4/127.0.0.1/tcp/4321" :=
  ⟨rfl, rfl⟩

/-- C3: iterating the wire buffer yields exactly four segments, in order:
ip4 `7f000001`, udp `04d2`, ip4 `7f000001`, tcp `10e1`. -/
theorem bytes_iter_segments :
    bytes_iter REGISTRY
        [0x04, 0x7f, 0x00, 0x00, 0x01, 0x91, 0x02, 0x04, 0xd2,
         0x04, 0x7f, 0x00, 0x00, 0x01, 0x06, 0x10, 0xe1]
      = .ok [(0, P_IP4, 4, [0x7f, 0x00, 0x00, 0x01]),
             (5, P_UDP, 2, [0x04, 0xd2]),
             (9, P_IP4, 4, [0x7f, 0x00, 0x00, 0x01]),
             (14, P_TCP, 2, [0x10, 0xe1])] := rfl

/-- C8: `/ip4/` (missing value) and `/unparsable/5` (codec that cannot
parse) fail with `StringParseError`, malformed binary buffers fail with
`BinaryParseError`, and in general every transform-engine outcome is a
success or exactly one of these two public error kinds — codec failures
never escape unwrapped. -/
theorem transform_error_wrapping :
    string_to_bytes EXT_REGISTRY "/ip4/" = .error .stringParse
    ∧ string_to_bytes EXT_REGISTRY "/unparsable/5" = .error .stringParse
    ∧ bytes_to_string EXT_REGISTRY [0xcd, 0x02, 0x0c, 0x0d] = .error .binaryParse
    ∧ bytes_to_string EXT_REGISTRY [0x35, 0x03, 0x61, 0x3a, 0x62] = .error .binaryParse
    ∧ (∀ (reg : List Protocol) (s : String),
        (∃ bs, string_to_bytes reg s = .ok bs)
        ∨ string_to_bytes reg s = .error .stringParse)
    ∧ (∀ (reg : List Protocol) (b : List Nat),
        (∃ str, bytes_to_string reg b = .ok str)
        ∨ bytes_to_string reg b = .error .binaryParse) :=
  ⟨rfl, rfl, rfl, rfl, string_to_bytes_ok_or, bytes_to_string_ok_or⟩
